import Mathlib

/-!
# SimpleBrowserHighlighter — verification of the spec against the source

Shallow embedding of the highlighter's content script (`src/content-script.js`,
with the draft locator of `src/unnamed/part_000`) and of the service worker's
fallback persistence (`src/service-worker.js`).

Modelling decisions, shared by all definitions below:

* JS strings are modelled as `List Char` (`Str`).  JS `slice`/`indexOf`
  operate on code units; all texts involved are plain text, so character
  lists are faithful.
* The page is modelled as the flat list of children of one parent node
  (`Doc`): each element is either a text node (`Seg.txt`) or a highlight
  marker `<span>` (`Seg.mark`) holding its inline `background-color` value
  (as assigned) and its text content.  Marker elements always contain a
  single text node in the source, so a flat list is an exact picture of the
  trees the content script builds.  Text nodes may be empty: DOM
  `Range.insertNode` splits the boundary text node, and the resulting empty
  halves stay in the tree (only `Node.normalize()` removes them), which is
  observable behaviour of the source.
* A DOM `Range` boundary is a (child index, character offset) pair
  (`RangeB`); an offset inside a marker element addresses its inner text
  node.  With that convention `Range.intersectsNode` on child `i` of the
  parent is exactly `r.si ≤ i ∧ i ≤ r.ei`.
* Reading `span.style.backgroundColor` back returns the CSSOM serialization
  of the assigned value: a hex colour serializes to `rgb(r, g, b)`
  (`cssSerializeColor`).  A non-hex assigned value is modelled as
  serializing to itself (adequate for the `rgb(…)` strings the extension
  itself round-trips; a syntactically invalid CSS value is not exercised by
  any theorem).
* `chrome.storage.local` for the single page key is the `List Rec` threaded
  through the operations.  The descriptor fields `prefix`/`suffix` of the
  source are named `pfx`/`sfx` here (the source names are not identifiers
  in Lean); the `id`/`createdAt`/`updatedAt` metadata fields are omitted —
  no statement below concerns them.
* Host-thrown DOM exceptions are not modelled: every modelled operation is
  deterministic.  The one tree shape the flat model cannot represent —
  inserting a new marker whose range boundary lies inside an existing
  marker element, which nests markers — makes the affected operation return
  `none` ("outside the model") rather than a wrong answer.
-/

namespace SBH

/-- JS strings as lists of characters. -/
abbrev Str := List Char

/-- The whitespace characters `String.prototype.trim` removes (the common
ASCII ones; the texts in play contain no exotic whitespace). -/
def isWhitespaceChar (c : Char) : Bool :=
  c = ' ' || c = '\t' || c = '\n' || c = '\r' || c = '\x0b' || c = '\x0c'

/-- `s.trim() !== ''`: the string has some non-whitespace character. -/
def hasNonWs (s : Str) : Bool := s.any (fun c => !isWhitespaceChar c)

/-- JS `String.prototype.trim`. -/
def trimStr (s : Str) : Str :=
  ((s.dropWhile isWhitespaceChar).reverse.dropWhile isWhitespaceChar).reverse

/-- One hex digit, as in the character class `[0-9A-Fa-f]`. -/
def isHexDigitChar (c : Char) : Bool :=
  ('0' ≤ c && c ≤ '9') || ('a' ≤ c && c ≤ 'f') || ('A' ≤ c && c ≤ 'F')

/-- `isValidHexColor` (content-script.js line 16): the regex
`/^#([0-9A-Fa-f]{3}|[0-9A-Fa-f]{6})$/`. -/
def isValidHexColor (c : Str) : Bool :=
  match c with
  | '#' :: rest => (rest.length = 3 || rest.length = 6) && rest.all isHexDigitChar
  | _ => false

/-- Numeric value of a hex digit. -/
def hexDigitVal (c : Char) : Nat :=
  if '0' ≤ c && c ≤ '9' then c.toNat - '0'.toNat
  else if 'a' ≤ c && c ≤ 'f' then c.toNat - 'a'.toNat + 10
  else if 'A' ≤ c && c ≤ 'F' then c.toNat - 'A'.toNat + 10
  else 0

/-- The `(r, g, b)` components of the digit part of a hex colour
(`#abc` expands each digit, `#aabbcc` pairs them). -/
def rgbTriple (digits : Str) : Nat × Nat × Nat :=
  match digits with
  | [r, g, b] => (17 * hexDigitVal r, 17 * hexDigitVal g, 17 * hexDigitVal b)
  | [r1, r2, g1, g2, b1, b2] =>
      (16 * hexDigitVal r1 + hexDigitVal r2,
       16 * hexDigitVal g1 + hexDigitVal g2,
       16 * hexDigitVal b1 + hexDigitVal b2)
  | _ => (0, 0, 0)

/-- Decimal digits of a natural number. -/
def natDecStr (n : Nat) : Str := (Nat.repr n).data

/-- CSSOM serialization of an assigned `background-color` value, as read
back from `el.style.backgroundColor` or `getComputedStyle(el)`: a valid hex
colour serializes to `rgb(r, g, b)`; anything else is modelled as itself. -/
def cssSerializeColor (c : Str) : Str :=
  if isValidHexColor c then
    match c with
    | _ :: digits =>
        let t := rgbTriple digits
        "rgb(".data ++ natDecStr t.1 ++ ", ".data ++ natDecStr t.2.1
          ++ ", ".data ++ natDecStr t.2.2 ++ ")".data
    | [] => c
  else c

/-- A child of the parent node: a text node, or a highlighter `<span>`
(class `__safe_ext_highlight_v1`) with its assigned inline colour and its
text content. -/
inductive Seg where
  | txt (s : Str)
  | mark (color : Str) (s : Str)
deriving DecidableEq

/-- The flat child list of the parent node. -/
abbrev Doc := List Seg

/-- `node.textContent`. -/
def segText : Seg → Str
  | .txt s => s
  | .mark _ s => s

/-- Whether the child is a highlighter span. -/
def segIsMark : Seg → Bool
  | .txt _ => false
  | .mark _ _ => true

/-- The document's full text, in order (text nodes and marker contents). -/
def docText (d : Doc) : Str := (d.map segText).flatten

/-- The (colour, text) of every marker element, in document order
(`document.querySelectorAll` order). -/
def docMarks (d : Doc) : List (Str × Str) :=
  d.filterMap (fun s => match s with | .mark c t => some (c, t) | .txt _ => none)

/-- A DOM `Range` over the flat child list: boundary points are
(child index, character offset); an offset inside a marker addresses its
inner text node. -/
structure RangeB where
  si : Nat
  so : Nat
  ei : Nat
  eo : Nat
deriving DecidableEq

/-- `Range.intersectsNode` for child `i`: with both boundary points inside
children, child `i` intersects iff `si ≤ i ≤ ei`. -/
def segInRange (r : RangeB) (i : Nat) : Bool :=
  decide (r.si ≤ i) && decide (i ≤ r.ei)

/-- `Range.toString()`: the characters between the two boundary points. -/
def rangeToString (d : Doc) (r : RangeB) : Str :=
  if r.ei < r.si then []
  else if r.si = r.ei then ((segText (d.getD r.si (.txt []))).take r.eo).drop r.so
  else ((segText (d.getD r.si (.txt []))).drop r.so)
    ++ (((d.drop (r.si + 1)).take (r.ei - r.si - 1)).map segText).flatten
    ++ ((segText (d.getD r.ei (.txt []))).take r.eo)

/-- `selectionIsFullyHighlighted` (content-script.js line 54).  The source
roots its `TreeWalker` at `range.commonAncestorContainer`.  When both range
boundaries lie in the same child (`r.si = r.ei`), that container is the
text node itself — a leaf — and `nextNode()` on a walker rooted at a leaf
yields nothing, so the `while` loop never runs and the function returns
`true` VACUOUSLY (whether or not the node is inside a marker).  Only when
the boundaries lie in different children is the common ancestor the parent;
then the walk visits every text node under it (empty `nodeValue` rejected,
nodes outside the range rejected via `intersectsNode`), and a top-level
text node in the range means the selection is not fully highlighted, while
text inside a marker element is fine. -/
def selectionIsFullyHighlighted (d : Doc) (r : RangeB) : Bool :=
  if r.si = r.ei then true
  else d.enum.all (fun p => match p.2 with
    | .txt s => s.isEmpty || !(segInRange r p.1)
    | .mark _ _ => true)

/-- `Node.normalize()` on the parent: merge adjacent text nodes and remove
empty ones (markers and their inner text are untouched). -/
def normalizeDoc : Doc → Doc
  | [] => []
  | .mark c s :: rest => .mark c s :: normalizeDoc rest
  | .txt s :: rest =>
    match normalizeDoc rest with
    | .txt t :: r2 => if s ++ t = [] then r2 else .txt (s ++ t) :: r2
    | r => if s = [] then r else .txt s :: r

/-- The unwrapping loop of `removeHighlightsIntersectingRange`: each marker
intersecting the range is replaced by a plain text node with its content. -/
def unwrapIntersecting (d : Doc) (r : RangeB) : Doc :=
  d.enum.map (fun p => match p.2 with
    | .mark c s => if segInRange r p.1 then .txt s else .mark c s
    | .txt s => .txt s)

/-- `removeHighlightsIntersectingRange` (content-script.js line 102): unwrap
every marker that intersects the range (whole extent, no clipping), then
normalize; returns whether anything was removed.  `normalize()` runs only
when some span was actually unwrapped, exactly as in the source. -/
def removeHighlightsIntersectingRange (d : Doc) (r : RangeB) : Doc × Bool :=
  if d.enum.any (fun p => segIsMark p.2 && segInRange r p.1)
  then (normalizeDoc (unwrapIntersecting d r), true)
  else (d, false)

/-- First half of `mergeAdjacentSpans` (content-script.js line 148): if the
previous sibling of the span at index `k` is a marker with the same computed
background colour, pour the span's text into it and delete the span; returns
the new list and the span's new index. -/
def mergeWithPrev (d : Doc) (k : Nat) : Doc × Nat :=
  match d[k]? with
  | some (.mark c s) =>
    if k = 0 then (d, k) else
      match d[k - 1]? with
      | some (.mark c' s') =>
        if cssSerializeColor c' = cssSerializeColor c then
          (d.take (k - 1) ++ [.mark c' (s' ++ s)] ++ d.drop (k + 1), k - 1)
        else (d, k)
      | _ => (d, k)
  | _ => (d, k)

/-- Second half of `mergeAdjacentSpans`: absorb a next sibling that is a
marker of the same computed colour. -/
def mergeWithNext (d : Doc) (k : Nat) : Doc :=
  match d[k]?, d[k + 1]? with
  | some (.mark c s), some (.mark c' s') =>
    if cssSerializeColor c' = cssSerializeColor c then
      d.take k ++ [.mark c (s ++ s')] ++ d.drop (k + 2)
    else d
  | _, _ => d

/-- `mergeAdjacentSpans` (content-script.js line 148) for the span at child
index `k`. -/
def mergeAdjacentSpans (d : Doc) (k : Nat) : Doc :=
  let p := mergeWithPrev d k
  mergeWithNext p.1 p.2

/-- `insertHighlightForRange` (content-script.js line 123): build a span
whose text is `range.toString()`, `deleteContents()`, `insertNode(span)`
(which splits the boundary text node, keeping the — possibly empty —
halves), then `mergeAdjacentSpans`.  Returns `none` when a range boundary
lies inside a marker element (the real code would nest markers, which the
flat model cannot represent) or a boundary index is out of range (the real
code would throw). -/
def insertHighlightForRange (d : Doc) (r : RangeB) (color : Str) : Option Doc :=
  if r.ei < r.si then none
  else match d[r.si]?, d[r.ei]? with
  | some (.txt s), some (.txt e) =>
    let str := rangeToString d r
    if r.si = r.ei then
      let del := s.take r.so ++ s.drop r.eo
      some (mergeAdjacentSpans
        (d.take r.si ++ [.txt (del.take r.so), .mark color str, .txt (del.drop r.so)]
          ++ d.drop (r.si + 1))
        (r.si + 1))
    else
      some (mergeAdjacentSpans
        (d.take r.si ++ [.txt (s.take r.so), .mark color str, .txt [], .txt (e.drop r.eo)]
          ++ d.drop (r.ei + 1))
        (r.si + 1))
  | _, _ => none

/-- A persisted highlight record (AnchorDescriptor).  `pfx`/`sfx` are the
source's `prefix`/`suffix`; `id`/`createdAt`/`updatedAt` are omitted. -/
structure Rec where
  text : Str
  pfx : Str
  sfx : Str
  color : Str
deriving DecidableEq

/-- `MAX_PERSISTED_PER_PAGE` (content-script.js line 13). -/
def MAX_PERSISTED_PER_PAGE : Nat := 300

/-- `saveHighlightsArray` (content-script.js line 219): the stored array for
the page key becomes `arr.slice(0, MAX_PERSISTED_PER_PAGE)`. -/
def saveHighlightsArray (arr : List Rec) : List Rec :=
  arr.take MAX_PERSISTED_PER_PAGE

/-- `persistAllSpans` (content-script.js line 364): rebuild the descriptor
array from the live marker elements.  The `data-ext-color` attribute is
never written anywhere in the source, so the colour read is always the
CSSOM serialization of the inline `style.backgroundColor`. -/
def persistAllSpans (d : Doc) : List Rec :=
  ((docMarks d).map (fun m =>
    { text := m.2, pfx := [], sfx := [], color := cssSerializeColor m.1 })).take
    MAX_PERSISTED_PER_PAGE

/-- `persistHighlightForUrl` (service-worker.js line 123): push one record
onto the existing stored array and save it back — with no cap. -/
def persistHighlightForUrl (existing : List Rec) (rec : Rec) : List Rec :=
  existing ++ [rec]

/-- The DOM half of `clearAllHighlights` (content-script.js line 204):
unwrap every marker, then normalize. -/
def clearAllHighlightsDoc (d : Doc) : Doc :=
  normalizeDoc (d.map (fun s => match s with | .mark _ t => .txt t | .txt t => .txt t))

/-- The tree-walker of the locators: the eligible text nodes, in document
order, with their (child index, cumulative start, cumulative end).  Nodes
with empty `nodeValue` and nodes inside marker elements are rejected
(`parent.closest('.' + HIGHLIGHT_CLASS)`). -/
def eligibleNodes (d : Doc) : List (Nat × Nat × Nat) :=
  (d.enum.foldl (fun (acc : List (Nat × Nat × Nat) × Nat) p =>
    match p.2 with
    | .txt s => if s = [] then acc
        else (acc.1 ++ [(p.1, acc.2, acc.2 + s.length)], acc.2 + s.length)
    | .mark _ _ => acc) ([], 0)).1

/-- The concatenation of the eligible nodes' text (`combined`). -/
def combinedOf (d : Doc) : Str :=
  (d.filterMap (fun s => match s with
    | .txt t => if t = [] then none else some t
    | .mark _ _ => none)).flatten

/-- `needle` occurs in `hay` starting at position `i`. -/
def occursAtB (hay needle : Str) (i : Nat) : Bool :=
  decide ((hay.drop i).take needle.length = needle)

/-- JS `hay.indexOf(needle)` for a non-empty needle: the first occurrence. -/
def indexOfStr (hay needle : Str) : Option Nat :=
  (List.range (hay.length + 1)).find? (occursAtB hay needle)

/-- The index-collecting loop of `findBestMatchForQuote`: every occurrence
of the needle, in ascending order. -/
def allIndicesOf (hay needle : Str) : List Nat :=
  (List.range (hay.length + 1)).filter (occursAtB hay needle)

/-- `tryApplyQuote` (content-script.js line 251): find the first occurrence
of `rec.text` in the combined eligible text, map it back to node offsets,
and wrap it via `insertHighlightForRange`.  Returns the mutated document on
success. -/
def tryApplyQuote (d : Doc) (rec : Rec) : Option Doc :=
  let needle := rec.text
  if needle = [] then none else
  let nodes := eligibleNodes d
  if nodes = [] then none else
  let combined := combinedOf d
  match indexOfStr combined needle with
  | none => none
  | some idx =>
    match nodes.find? (fun n => decide (n.2.1 ≤ idx) && decide (idx < n.2.2)),
          nodes.find? (fun n => decide (n.2.1 ≤ idx + needle.length - 1)
            && decide (idx + needle.length - 1 < n.2.2)) with
    | some sInfo, some eInfo =>
      let so := idx - sInfo.2.1
      let eo := if sInfo.1 = eInfo.1 then so + needle.length
                else idx + needle.length - eInfo.2.1
      insertHighlightForRange d ⟨sInfo.1, so, eInfo.1, eo⟩ rec.color
    | _, _ => none

/-- `prefixSuffixScore` (src/unnamed/part_000 line 146): one point for each
context side that checks out, where an EMPTY side counts as vacuously
matching and therefore also scores its point (`quote.prefix ? … : true`
followed by `if (prefixOK) score += 1`). -/
def prefixSuffixScore (combined : Str) (q : Rec) (i : Nat) : Nat :=
  let prefixOK := if q.pfx = [] then true
    else decide ((combined.take i).drop (i - q.pfx.length) = q.pfx)
  let suffixOK := if q.sfx = [] then true
    else decide ((combined.drop (i + q.text.length)).take q.sfx.length = q.sfx)
  (if prefixOK then 1 else 0) + (if suffixOK then 1 else 0)

/-- The occurrence `findBestMatchForQuote` resolves to: sort the occurrence
list by descending `prefixSuffixScore` (JS `Array.prototype.sort` is
stable) and take the first. -/
def bestIndexForQuote (combined : Str) (q : Rec) : Option Nat :=
  ((allIndicesOf combined q.text).mergeSort
    (fun a b => decide (prefixSuffixScore combined q b ≤ prefixSuffixScore combined q a))).head?

/-- The resolved live position returned by `findBestMatchForQuote`. -/
structure MatchInfo where
  startIdx : Nat
  startOff : Nat
  endIdx : Nat
  endOff : Nat
  text : Str
deriving DecidableEq

/-- `findBestMatchForQuote` (src/unnamed/part_000 line 101): collect the
occurrences of `quote.text` in the combined eligible text, pick the best by
`prefixSuffixScore`, and map it back to node offsets. -/
def findBestMatchForQuote (d : Doc) (q : Rec) : Option MatchInfo :=
  let needle := q.text
  if needle = [] then none else
  let nodes := eligibleNodes d
  let combined := combinedOf d
  if combined.length = 0 then none else
  match bestIndexForQuote combined q with
  | none => none
  | some bestIndex =>
    match nodes.find? (fun n => decide (n.2.1 ≤ bestIndex) && decide (bestIndex < n.2.2)),
          nodes.find? (fun n => decide (n.2.1 ≤ bestIndex + needle.length - 1)
            && decide (bestIndex + needle.length - 1 < n.2.2)) with
    | some sInfo, some eInfo =>
      let so := bestIndex - sInfo.2.1
      let eo := if sInfo.1 = eInfo.1 then so + needle.length
                else bestIndex + needle.length - 1 - eInfo.2.1 + 1
      some ⟨sInfo.1, so, eInfo.1, eo, needle⟩
    | _, _ => none

/-- One step of the reconciliation loop of `reapplyOnLoad`
(content-script.js line 237): skip records with empty `text` or `color`;
otherwise locate-and-apply, keeping the record on success. -/
def reapplyStep (acc : Doc × List Rec) (rec : Rec) : Doc × List Rec :=
  if rec.text = [] ∨ rec.color = [] then acc
  else match tryApplyQuote acc.1 rec with
    | some d2 => (d2, acc.2 ++ [rec])
    | none => acc

/-- `reapplyOnLoad` (content-script.js line 229): read the stored array
(early return when empty), run the reconciliation loop, and persist the
kept records via `saveHighlightsArray`.  Result: (document, stored array). -/
def reapplyOnLoad (d : Doc) (st : List Rec) : Doc × List Rec :=
  if st.isEmpty then (d, st)
  else
    let p := st.foldl reapplyStep (d, [])
    (p.1, saveHighlightsArray p.2)

/-- A message to the content script's `onMessage` listener. -/
inductive HMsg where
  | highlight (color : Str)
  | clearAll
  | getPrefs

/-- The response shape: `ok`, with `err` carrying the failure reason. -/
structure Resp where
  ok : Bool
  err : Option Str
deriving DecidableEq

/-- The `onMessage` listener (content-script.js line 301), acting on the
document, the stored array, and the current selection (`none` when there is
no selection).  Returns `none` only when the apply path would nest marker
elements (outside the flat model); every modelled path returns `some`. -/
def handleMessage (d : Doc) (st : List Rec) (msg : HMsg) (sel : Option RangeB) :
    Option (Resp × Doc × List Rec) :=
  match msg with
  | .highlight rawColor =>
    let color := trimStr rawColor
    if ¬ isValidHexColor color then some (⟨false, some "invalid_color".data⟩, d, st)
    else match sel with
    | none => some (⟨false, some "no_selection".data⟩, d, st)
    | some r =>
      if (r.si = r.ei ∧ r.so = r.eo) ∨ ¬ hasNonWs (rangeToString d r) then
        some (⟨false, some "no_selection".data⟩, d, st)
      else if selectionIsFullyHighlighted d r then
        let p := removeHighlightsIntersectingRange d r
        if p.2 then some (⟨true, none⟩, p.1, saveHighlightsArray (persistAllSpans p.1))
        else some (⟨false, some "nothing_removed".data⟩, d, st)
      else match insertHighlightForRange d r color with
        | some d2 => some (⟨true, none⟩, d2, saveHighlightsArray (persistAllSpans d2))
        | none => none
  | .clearAll => some (⟨true, none⟩, clearAllHighlightsDoc d, saveHighlightsArray [])
  | .getPrefs => some (⟨true, none⟩, d, st)

/-- The score as worded by the spec/claim C1: a context side scores its
point only when it is non-empty and the adjacent stream slice matches it
exactly; an empty side contributes nothing.  (This differs from
`prefixSuffixScore` only by a constant shift: the source also awards the
point for an empty — vacuously matching — side, uniformly across all
occurrences.) -/
def specContextScore (combined : Str) (q : Rec) (i : Nat) : Nat :=
  (if q.pfx ≠ [] ∧ (combined.take i).drop (i - q.pfx.length) = q.pfx then 1 else 0)
  + (if q.sfx ≠ [] ∧ (combined.drop (i + q.text.length)).take q.sfx.length = q.sfx then 1 else 0)

/-- The reconciliation pass as worded by the amended claim C2: for each
stored descriptor in order, if its `text` and `color` are non-empty and the
locator succeeds on the current document, apply and keep it; otherwise drop
it. -/
def reconcileKeptSpec : Doc → List Rec → Doc × List Rec
  | d, [] => (d, [])
  | d, r :: rest =>
    if r.text ≠ [] ∧ r.color ≠ [] then
      match tryApplyQuote d r with
      | some d2 =>
        let p := reconcileKeptSpec d2 rest
        (p.1, r :: p.2)
      | none => reconcileKeptSpec d rest
    else reconcileKeptSpec d rest

/-- The whole pass as worded by the amended claim C2: run the keep-loop,
then persist the first `MAX_PERSISTED_PER_PAGE` of the kept subset. -/
def reconcileOnLoadSpec (d : Doc) (st : List Rec) : Doc × List Rec :=
  let p := reconcileKeptSpec d st
  (p.1, p.2.take MAX_PERSISTED_PER_PAGE)

/-- Well-formedness of a DOM range over the flat child list: ordered
boundaries, in-bounds container indices and offsets. -/
def rangeWF (d : Doc) (r : RangeB) : Prop :=
  r.si ≤ r.ei ∧ r.ei < d.length
    ∧ r.so ≤ (segText (d.getD r.si (.txt []))).length
    ∧ r.eo ≤ (segText (d.getD r.ei (.txt []))).length
    ∧ (r.si = r.ei → r.so ≤ r.eo)

/-! ## Shared helper lemmas -/

/-- The reconciliation fold, started from any accumulator, produces the
spec-style recursion's document and appends its kept list. -/
lemma foldl_reapplyStep (st : List Rec) : ∀ (d : Doc) (acc : List Rec),
    st.foldl reapplyStep (d, acc)
      = ((reconcileKeptSpec d st).1, acc ++ (reconcileKeptSpec d st).2) := by
  induction st with
  | nil => intro d acc; simp [reconcileKeptSpec]
  | cons r rest ih =>
    intro d acc
    rw [List.foldl_cons]
    by_cases h1 : r.text = [] ∨ r.color = []
    · have hg : ¬ (r.text ≠ [] ∧ r.color ≠ []) := by tauto
      rw [show reapplyStep (d, acc) r = (d, acc) from by simp [reapplyStep, h1],
        show reconcileKeptSpec d (r :: rest) = reconcileKeptSpec d rest from by
          simp [reconcileKeptSpec, hg]]
      exact ih d acc
    · have hg : r.text ≠ [] ∧ r.color ≠ [] := by tauto
      cases htry : tryApplyQuote d r with
      | some d2 =>
        rw [show reapplyStep (d, acc) r = (d2, acc ++ [r]) from by
            simp [reapplyStep, h1, htry],
          show reconcileKeptSpec d (r :: rest)
              = ((reconcileKeptSpec d2 rest).1, r :: (reconcileKeptSpec d2 rest).2) from by
            simp [reconcileKeptSpec, hg, htry]]
        rw [ih d2 (acc ++ [r])]
        simp
      | none =>
        rw [show reapplyStep (d, acc) r = (d, acc) from by simp [reapplyStep, h1, htry],
          show reconcileKeptSpec d (r :: rest) = reconcileKeptSpec d rest from by
            simp [reconcileKeptSpec, hg, htry]]
        exact ih d acc

/-- The kept list of the reconciliation pass is a sublist of the input
descriptor list. -/
lemma reconcileKeptSpec_sublist (st : List Rec) :
    ∀ d : Doc, ((reconcileKeptSpec d st).2).Sublist st := by
  induction st with
  | nil => intro d; simp [reconcileKeptSpec]
  | cons r rest ih =>
    intro d
    by_cases hg : r.text ≠ [] ∧ r.color ≠ []
    · cases htry : tryApplyQuote d r with
      | some d2 =>
        rw [show reconcileKeptSpec d (r :: rest)
            = ((reconcileKeptSpec d2 rest).1, r :: (reconcileKeptSpec d2 rest).2) from by
          simp [reconcileKeptSpec, hg, htry]]
        exact (ih d2).cons₂ r
      | none =>
        rw [show reconcileKeptSpec d (r :: rest) = reconcileKeptSpec d rest from by
          simp [reconcileKeptSpec, hg, htry]]
        exact (ih d).cons r
    · rw [show reconcileKeptSpec d (r :: rest) = reconcileKeptSpec d rest from by
        simp [reconcileKeptSpec, hg]]
      exact (ih d).cons r

/-- In a strictly increasing list, two members in value order form a
sublist in that order. -/
lemma pair_sublist_of_pairwise_lt {l : List Nat} (hl : l.Pairwise (· < ·)) {a b : Nat}
    (ha : a ∈ l) (hb : b ∈ l) (hab : a < b) : [a, b].Sublist l := by
  induction l with
  | nil => cases ha
  | cons x xs ih =>
    have hl' := List.pairwise_cons.mp hl
    rcases List.mem_cons.mp ha with rfl | ha'
    · have hb' : b ∈ xs := by
        rcases List.mem_cons.mp hb with rfl | h
        · omega
        · exact h
      exact (List.singleton_sublist.mpr hb').cons₂ a
    · have hb' : b ∈ xs := by
        rcases List.mem_cons.mp hb with rfl | h
        · have := hl'.1 a ha'
          omega
        · exact h
      exact (ih hl'.2 ha' hb').cons x

/-- A stable sort by descending score of a strictly increasing list puts at
the head the earliest element of maximal score (this is what JS
`indices.sort((a,b) => score(b) - score(a))` followed by `indices[0]`
computes, `Array.prototype.sort` being stable). -/
lemma head_mergeSort_earliest_max (f : Nat → Nat) (l : List Nat) (hl : l.Pairwise (· < ·))
    (i : Nat) (h : (l.mergeSort (fun a b => decide (f b ≤ f a))).head? = some i) :
    i ∈ l ∧ ∀ j ∈ l, f j ≤ f i ∧ (f j = f i → i ≤ j) := by
  have trans : ∀ a b c : Nat, (fun a b => decide (f b ≤ f a)) a b = true →
      (fun a b => decide (f b ≤ f a)) b c = true →
      (fun a b => decide (f b ≤ f a)) a c = true := by
    intro a b c h1 h2
    simp only [decide_eq_true_eq] at h1 h2 ⊢
    omega
  have total : ∀ a b : Nat, ((fun a b => decide (f b ≤ f a)) a b
      || (fun a b => decide (f b ≤ f a)) b a) = true := by
    intro a b
    simp only [Bool.or_eq_true, decide_eq_true_eq]
    omega
  have hperm := List.mergeSort_perm l (fun a b => decide (f b ≤ f a))
  have hsorted := List.sorted_mergeSort trans total l
  have hnd : l.Nodup := hl.imp (fun hlt => Nat.ne_of_lt hlt)
  cases hms : l.mergeSort (fun a b => decide (f b ≤ f a)) with
  | nil => rw [hms] at h; cases h
  | cons x t =>
    rw [hms] at hperm hsorted
    have hx : x = i := by rw [hms] at h; simpa using h
    subst hx
    have hmem : x ∈ l := hperm.subset (List.mem_cons_self x t)
    refine ⟨hmem, ?_⟩
    intro j hj
    have hjms : j ∈ x :: t := hperm.mem_iff.mpr hj
    have hmax : f j ≤ f x := by
      rcases List.mem_cons.mp hjms with rfl | hjt
      · exact le_refl _
      · have := (List.pairwise_cons.mp hsorted).1 j hjt
        simpa using this
    refine ⟨hmax, ?_⟩
    intro hfeq
    by_contra hxi
    have hji : j < x := by
      rcases Nat.lt_or_ge j x with h' | h'
      · exact h'
      · omega
    have hpair : [j, x].Sublist l := pair_sublist_of_pairwise_lt hl hj hmem hji
    have hpw : List.Pairwise
        (fun a b => (fun a b => decide (f b ≤ f a)) a b = true) [j, x] := by
      simp [hfeq]
    have hsub2 : [j, x].Sublist (x :: t) := by
      rw [← hms]
      exact List.sublist_mergeSort trans total hpw hpair
    have hxt : x ∈ t := by
      cases hsub2 with
      | cons _ h' => exact h'.subset (by simp)
      | cons₂ _ _ => omega
    have hnd2 : (x :: t).Nodup := hperm.nodup_iff.mpr hnd
    exact (List.nodup_cons.mp hnd2).1 hxt

/-- The source's score is the claim's score plus a constant (the vacuous
point(s) for empty context sides, awarded uniformly to every occurrence). -/
lemma prefixSuffixScore_shift (combined : Str) (q : Rec) (i : Nat) :
    prefixSuffixScore combined q i
      = specContextScore combined q i
        + ((if q.pfx = [] then 1 else 0) + (if q.sfx = [] then 1 else 0)) := by
  unfold prefixSuffixScore specContextScore
  by_cases hp : q.pfx = [] <;> by_cases hs : q.sfx = [] <;>
    by_cases h1 : (combined.take i).drop (i - q.pfx.length) = q.pfx <;>
    by_cases h2 : (combined.drop (i + q.text.length)).take q.sfx.length = q.sfx <;>
    simp [hp, hs, h1, h2]

/-- A non-empty needle can only occur strictly inside the haystack. -/
lemma occursAtB_lt_length {hay needle : Str} (hne : needle ≠ []) {j : Nat}
    (h : occursAtB hay needle j = true) : j < hay.length := by
  unfold occursAtB at h
  rw [decide_eq_true_eq] at h
  by_contra hge
  push_neg at hge
  rw [List.drop_eq_nil_of_le hge] at h
  simp only [List.take_nil] at h
  exact hne h.symm

/-- Membership in the occurrence list is exactly occurrence (for a
non-empty needle). -/
lemma mem_allIndicesOf {hay needle : Str} (hne : needle ≠ []) (j : Nat) :
    j ∈ allIndicesOf hay needle ↔ occursAtB hay needle j = true := by
  unfold allIndicesOf
  rw [List.mem_filter]
  constructor
  · exact fun h => h.2
  · intro h
    refine ⟨List.mem_range.mpr ?_, h⟩
    have := occursAtB_lt_length hne h
    omega

/-- The occurrence list is strictly increasing. -/
lemma allIndicesOf_pairwise (hay needle : Str) :
    (allIndicesOf hay needle).Pairwise (· < ·) :=
  List.Pairwise.sublist (List.filter_sublist _) (List.pairwise_lt_range _)

@[simp] lemma segText_txt (s : Str) : segText (.txt s) = s := rfl

@[simp] lemma segText_mark (c s : Str) : segText (.mark c s) = s := rfl

@[simp] lemma segIsMark_txt (s : Str) : segIsMark (.txt s) = false := rfl

@[simp] lemma segIsMark_mark (c s : Str) : segIsMark (.mark c s) = true := rfl

@[simp] lemma docText_nil : docText [] = [] := rfl

@[simp] lemma docText_cons (s : Seg) (l : Doc) :
    docText (s :: l) = segText s ++ docText l := by
  simp [docText]

@[simp] lemma docMarks_nil : docMarks [] = [] := rfl

lemma docMarks_cons (s : Seg) (l : Doc) :
    docMarks (s :: l) = (match s with | .mark c t => [(c, t)] | .txt _ => []) ++ docMarks l := by
  cases s <;> simp [docMarks]

@[simp] lemma docMarks_txt_cons (s : Str) (l : Doc) :
    docMarks (.txt s :: l) = docMarks l := by
  simp [docMarks]

@[simp] lemma docMarks_mark_cons (c s : Str) (l : Doc) :
    docMarks (.mark c s :: l) = (c, s) :: docMarks l := by
  simp [docMarks]

lemma docText_append (l1 l2 : Doc) : docText (l1 ++ l2) = docText l1 ++ docText l2 := by
  simp [docText]

lemma docMarks_append (l1 l2 : Doc) : docMarks (l1 ++ l2) = docMarks l1 ++ docMarks l2 := by
  simp [docMarks]

/-- `segInRange` as an inequality pair. -/
lemma segInRange_iff (r : RangeB) (i : Nat) :
    segInRange r i = true ↔ r.si ≤ i ∧ i ≤ r.ei := by
  simp [segInRange]

/-- Normalization preserves the document text. -/
lemma docText_normalizeDoc (d : Doc) : docText (normalizeDoc d) = docText d := by
  induction d with
  | nil => rfl
  | cons s rest ih =>
    cases s with
    | mark c t => simp [normalizeDoc, ih]
    | txt t =>
      simp only [normalizeDoc]
      cases hnr : normalizeDoc rest with
      | nil =>
        have hrest : docText rest = [] := by rw [← ih, hnr]; rfl
        by_cases ht : t = [] <;> simp [ht, hrest]
      | cons y r2 =>
        have hrest : docText rest = docText (y :: r2) := by rw [← ih, hnr]
        cases y with
        | txt u =>
          by_cases htu : t ++ u = []
          · rcases List.append_eq_nil.mp htu with ⟨ht, hu⟩
            simp [htu, hrest, ht, hu]
          · simp [htu, hrest]
        | mark c u =>
          by_cases ht : t = [] <;> simp [ht, hrest]

/-- Normalization preserves the marker elements. -/
lemma docMarks_normalizeDoc (d : Doc) : docMarks (normalizeDoc d) = docMarks d := by
  induction d with
  | nil => rfl
  | cons s rest ih =>
    cases s with
    | mark c t => simp [normalizeDoc, ih]
    | txt t =>
      simp only [normalizeDoc]
      cases hnr : normalizeDoc rest with
      | nil =>
        have hrest : docMarks rest = [] := by rw [← ih, hnr]; rfl
        by_cases ht : t = [] <;> simp [ht, hrest]
      | cons y r2 =>
        have hrest : docMarks rest = docMarks (y :: r2) := by rw [← ih, hnr]
        cases y with
        | txt u =>
          by_cases htu : t ++ u = [] <;> simp [htu, hrest]
        | mark c u =>
          by_cases ht : t = [] <;> simp [ht, hrest]

/-- Unwrapping preserves the document text. -/
lemma docText_unwrapIntersecting (d : Doc) (r : RangeB) :
    docText (unwrapIntersecting d r) = docText d := by
  unfold docText unwrapIntersecting
  rw [List.map_map]
  have h : (segText ∘ fun p : Nat × Seg => match p.2 with
      | .mark c s => if segInRange r p.1 then Seg.txt s else .mark c s
      | .txt s => .txt s) = (fun p : Nat × Seg => segText p.2) := by
    funext p
    rcases p with ⟨i, seg⟩
    cases seg with
    | txt s => rfl
    | mark c s => cases hseg : segInRange r i <;> simp [Function.comp, segText, hseg]
  rw [h]
  rw [show (fun p : Nat × Seg => segText p.2) = segText ∘ Prod.snd from rfl,
    ← List.map_map, List.enum_map_snd]

/-- The markers surviving an unwrap are exactly the non-intersecting ones,
unchanged and in order. -/
lemma docMarks_unwrapIntersecting (d : Doc) (r : RangeB) :
    docMarks (unwrapIntersecting d r)
      = d.enum.filterMap (fun p => match p.2 with
          | .mark c s => if segInRange r p.1 then none else some (c, s)
          | .txt _ => none) := by
  unfold docMarks unwrapIntersecting
  rw [List.filterMap_map]
  congr 1
  funext p
  rcases p with ⟨i, seg⟩
  cases seg with
  | txt s => rfl
  | mark c s => cases hseg : segInRange r i <;> simp [Function.comp, hseg]

/-- A non-whitespace selection string means some child between the range's
container indices carries non-empty text. -/
lemma exists_seg_of_hasNonWs {d : Doc} {r : RangeB}
    (h : hasNonWs (rangeToString d r) = true) :
    ∃ i, r.si ≤ i ∧ i ≤ r.ei ∧ i < d.length
      ∧ segText (d.getD i (.txt [])) ≠ [] := by
  have hne : rangeToString d r ≠ [] := by
    intro hnil
    rw [hnil] at h
    simp [hasNonWs] at h
  have hlt : ∀ k : Nat, segText (d.getD k (.txt [])) ≠ [] → k < d.length := by
    intro k hk
    by_contra hge
    push_neg at hge
    rw [List.getD_eq_getElem?_getD, List.getElem?_eq_none (by omega)] at hk
    simp [segText] at hk
  unfold rangeToString at hne
  by_cases h1 : r.ei < r.si
  · rw [if_pos h1] at hne
    exact absurd rfl hne
  · rw [if_neg h1] at hne
    by_cases h2 : r.si = r.ei
    · rw [if_pos h2] at hne
      have hseg : segText (d.getD r.si (.txt [])) ≠ [] := by
        intro hs
        rw [hs] at hne
        simp at hne
      exact ⟨r.si, le_refl _, by omega, hlt _ hseg, hseg⟩
    · rw [if_neg h2] at hne
      by_cases hA : (segText (d.getD r.si (.txt []))).drop r.so = []
      · by_cases hB : (((d.drop (r.si + 1)).take (r.ei - r.si - 1)).map segText).flatten = []
        · have hC : (segText (d.getD r.ei (.txt []))).take r.eo ≠ [] := by
            intro hC
            apply hne
            rw [hA, hB, hC]
            rfl
          have hseg : segText (d.getD r.ei (.txt [])) ≠ [] := by
            intro hs
            rw [hs] at hC
            simp at hC
          exact ⟨r.ei, by omega, le_refl _, hlt _ hseg, hseg⟩
        · have hex : ∃ x ∈ ((d.drop (r.si + 1)).take (r.ei - r.si - 1)).map segText,
              x ≠ [] := by
            by_contra hc
            push_neg at hc
            exact hB (List.flatten_eq_nil_iff.mpr hc)
          obtain ⟨x, hx, hxne⟩ := hex
          obtain ⟨seg, hsegmem, rfl⟩ := List.mem_map.mp hx
          obtain ⟨j, hj, hjseg⟩ := List.mem_iff_getElem.mp hsegmem
          have hjlen : j < r.ei - r.si - 1 ∧ r.si + 1 + j < d.length := by
            have := hj
            simp only [List.length_take, List.length_drop, lt_min_iff] at this
            omega
          have hj2 : r.si + 1 + j < d.length := hjlen.2
          have hdij : d[r.si + 1 + j] = seg := by
            rw [← hjseg]
            rw [List.getElem_take, List.getElem_drop]
          refine ⟨r.si + 1 + j, by omega, by omega, hjlen.2, ?_⟩
          rw [List.getD_eq_getElem?_getD, List.getElem?_eq_getElem hjlen.2]
          simpa [hdij] using hxne
      · have hseg : segText (d.getD r.si (.txt [])) ≠ [] := by
          intro hs
          rw [hs] at hA
          simp at hA
        exact ⟨r.si, le_refl _, by omega, hlt _ hseg, hseg⟩

/-- `mergeAdjacentSpans` is a no-op whenever both siblings of position `k`
are text nodes — which is always the case right after `insertNode`, since
the split leaves (possibly empty) text-node halves on both sides. -/
lemma mergeAdjacentSpans_txt_neighbors {d : Doc} {k : Nat}
    (h1 : ∃ a, d[k - 1]? = some (Seg.txt a)) (h2 : ∃ b, d[k + 1]? = some (Seg.txt b)) :
    mergeAdjacentSpans d k = d := by
  obtain ⟨a, h1⟩ := h1
  obtain ⟨b, h2⟩ := h2
  have hprev : mergeWithPrev d k = (d, k) := by
    unfold mergeWithPrev
    cases hdk : d[k]? with
    | none => rfl
    | some seg =>
      cases seg with
      | txt s => rfl
      | mark c s =>
        by_cases hk0 : k = 0
        · subst hk0
          simp only [Nat.zero_sub] at h1
          rw [h1] at hdk
          cases hdk
        · simp only [if_neg hk0, h1]
  have hnext : mergeWithNext d k = d := by
    unfold mergeWithNext
    cases hdk : d[k]? with
    | none => rfl
    | some seg =>
      cases seg with
      | txt s => rfl
      | mark c s => rw [h2]
  unfold mergeAdjacentSpans
  rw [hprev]
  exact hnext

/-- Indexing the middle block of a three-part concatenation. -/
lemma getElem?_middle (X L Y : Doc) (j : Nat) (hj : j < L.length) :
    (X ++ L ++ Y)[X.length + j]? = L[j]? := by
  rw [List.append_assoc,
    List.getElem?_append_right (by omega : X.length ≤ X.length + j)]
  simp only [Nat.add_sub_cancel_left]
  rw [List.getElem?_append, if_pos hj]

/-- Inserting a highlight over a well-formed range that touches no existing
marker succeeds and yields: the markers before, exactly one new marker
carrying the selection string, the markers after — with the document text
unchanged. -/
lemma insert_no_marks (d : Doc) (r : RangeB) (color : Str)
    (hwf : rangeWF d r)
    (hnc : ∀ i, segInRange r i = true → segIsMark (d.getD i (.txt [])) = false) :
    ∃ d2, insertHighlightForRange d r color = some d2
      ∧ docMarks d2 = docMarks (d.take r.si) ++ [(color, rangeToString d r)]
          ++ docMarks (d.drop (r.ei + 1))
      ∧ docText d2 = docText d := by
  obtain ⟨hsiei, heilen, hso, heo, hsoeo⟩ := hwf
  have hsil : r.si < d.length := by omega
  have hsitxt : ∃ s, d[r.si] = Seg.txt s := by
    have h := hnc r.si ((segInRange_iff r r.si).mpr ⟨le_refl _, hsiei⟩)
    rw [List.getD_eq_getElem?_getD, List.getElem?_eq_getElem hsil] at h
    cases hdi : d[r.si] with
    | txt s => exact ⟨s, rfl⟩
    | mark c s => rw [hdi] at h; simp at h
  have heitxt : ∃ e, d[r.ei] = Seg.txt e := by
    have h := hnc r.ei ((segInRange_iff r r.ei).mpr ⟨hsiei, le_refl _⟩)
    rw [List.getD_eq_getElem?_getD, List.getElem?_eq_getElem heilen] at h
    cases hdi : d[r.ei] with
    | txt e => exact ⟨e, rfl⟩
    | mark c e => rw [hdi] at h; simp at h
  obtain ⟨s, hs⟩ := hsitxt
  obtain ⟨e, he⟩ := heitxt
  have hs2 : d[r.si]? = some (Seg.txt s) := by rw [List.getElem?_eq_getElem hsil, hs]
  have he2 : d[r.ei]? = some (Seg.txt e) := by rw [List.getElem?_eq_getElem heilen, he]
  have hslen : r.so ≤ s.length := by
    rw [List.getD_eq_getElem?_getD, hs2] at hso
    simpa using hso
  have helen : r.eo ≤ e.length := by
    rw [List.getD_eq_getElem?_getD, he2] at heo
    simpa using heo
  have htakelen : (d.take r.si).length = r.si := by
    rw [List.length_take]
    omega
  have hdocd : docText d
      = docText (d.take r.si) ++ (s ++ docText (d.drop (r.si + 1))) := by
    conv_lhs => rw [← List.take_append_drop r.si d]
    rw [docText_append, List.drop_eq_getElem_cons hsil, hs]
    simp
  unfold insertHighlightForRange
  rw [if_neg (by omega : ¬ r.ei < r.si)]
  simp only [hs2, he2]
  by_cases hcase : r.si = r.ei
  · rw [if_pos hcase]
    have hstr : rangeToString d r = (s.take r.eo).drop r.so := by
      unfold rangeToString
      rw [if_neg (by omega : ¬ r.ei < r.si), if_pos hcase,
        List.getD_eq_getElem?_getD, hs2]
      rfl
    have hsoeo2 : r.so ≤ r.eo := hsoeo hcase
    have hp1 : ((s.take r.so ++ s.drop r.eo).take r.so) = s.take r.so :=
      List.take_left' (by rw [List.length_take]; omega)
    have hp2 : ((s.take r.so ++ s.drop r.eo).drop r.so) = s.drop r.eo :=
      List.drop_left' (by rw [List.length_take]; omega)
    have hmid : s.take r.so ++ ((s.take r.eo).drop r.so ++ s.drop r.eo) = s := by
      have ht : (s.take r.eo).take r.so = s.take r.so := by
        rw [List.take_take]
        congr 1
        omega
      rw [← ht, ← List.append_assoc, List.take_append_drop, List.take_append_drop]
    have hn1 : ∃ a,
        (d.take r.si ++ [Seg.txt ((s.take r.so ++ s.drop r.eo).take r.so),
          Seg.mark color (rangeToString d r),
          Seg.txt ((s.take r.so ++ s.drop r.eo).drop r.so)]
          ++ d.drop (r.si + 1))[r.si + 1 - 1]? = some (Seg.txt a) := by
      refine ⟨(s.take r.so ++ s.drop r.eo).take r.so, ?_⟩
      have h0 : r.si + 1 - 1 = (d.take r.si).length + 0 := by omega
      rw [h0, getElem?_middle _ _ _ 0 (by simp)]
      rfl
    have hn2 : ∃ b,
        (d.take r.si ++ [Seg.txt ((s.take r.so ++ s.drop r.eo).take r.so),
          Seg.mark color (rangeToString d r),
          Seg.txt ((s.take r.so ++ s.drop r.eo).drop r.so)]
          ++ d.drop (r.si + 1))[r.si + 1 + 1]? = some (Seg.txt b) := by
      refine ⟨(s.take r.so ++ s.drop r.eo).drop r.so, ?_⟩
      have h0 : r.si + 1 + 1 = (d.take r.si).length + 2 := by omega
      rw [h0, getElem?_middle _ _ _ 2 (by simp)]
      rfl
    refine ⟨_, rfl, ?_, ?_⟩
    · rw [mergeAdjacentSpans_txt_neighbors hn1 hn2]
      rw [docMarks_append, docMarks_append]
      rw [← hcase]
      simp
    · rw [mergeAdjacentSpans_txt_neighbors hn1 hn2]
      rw [docText_append, docText_append, hdocd, List.append_assoc]
      congr 1
      simp only [docText_cons, docText_nil, segText_txt, segText_mark,
        List.append_nil, hp1, hp2, hstr, List.append_assoc]
      nth_rewrite 4 [← hmid]
      simp only [List.append_assoc]
  · rw [if_neg hcase]
    have hstr : rangeToString d r
        = s.drop r.so
          ++ (((d.drop (r.si + 1)).take (r.ei - r.si - 1)).map segText).flatten
          ++ e.take r.eo := by
      unfold rangeToString
      rw [if_neg (by omega : ¬ r.ei < r.si), if_neg hcase,
        List.getD_eq_getElem?_getD, hs2, List.getD_eq_getElem?_getD, he2]
      rfl
    have hn1 : ∃ a,
        (d.take r.si ++ [Seg.txt (s.take r.so), Seg.mark color (rangeToString d r),
          Seg.txt [], Seg.txt (e.drop r.eo)]
          ++ d.drop (r.ei + 1))[r.si + 1 - 1]? = some (Seg.txt a) := by
      refine ⟨s.take r.so, ?_⟩
      have h0 : r.si + 1 - 1 = (d.take r.si).length + 0 := by omega
      rw [h0, getElem?_middle _ _ _ 0 (by simp)]
      rfl
    have hn2 : ∃ b,
        (d.take r.si ++ [Seg.txt (s.take r.so), Seg.mark color (rangeToString d r),
          Seg.txt [], Seg.txt (e.drop r.eo)]
          ++ d.drop (r.ei + 1))[r.si + 1 + 1]? = some (Seg.txt b) := by
      refine ⟨[], ?_⟩
      have h0 : r.si + 1 + 1 = (d.take r.si).length + 2 := by omega
      rw [h0, getElem?_middle _ _ _ 2 (by simp)]
      rfl
    have hdocd2 : docText d
        = docText (d.take r.si)
          ++ (s ++ ((((d.drop (r.si + 1)).take (r.ei - r.si - 1)).map segText).flatten
            ++ (e ++ docText (d.drop (r.ei + 1))))) := by
      rw [hdocd]
      congr 2
      conv_lhs => rw [← List.take_append_drop (r.ei - r.si - 1) (d.drop (r.si + 1))]
      rw [docText_append]
      congr 1
      rw [List.drop_drop]
      have h0 : r.si + 1 + (r.ei - r.si - 1) = r.ei := by omega
      rw [h0, List.drop_eq_getElem_cons heilen, he]
      simp
    refine ⟨_, rfl, ?_, ?_⟩
    · rw [mergeAdjacentSpans_txt_neighbors hn1 hn2]
      rw [docMarks_append, docMarks_append]
      simp
    · rw [mergeAdjacentSpans_txt_neighbors hn1 hn2]
      rw [docText_append, docText_append, hdocd2, List.append_assoc]
      congr 1
      simp only [docText_cons, docText_nil, segText_txt, segText_mark,
        List.append_nil, List.nil_append, hstr, List.append_assoc]
      rw [← List.append_assoc (s.take r.so) (s.drop r.so), List.take_append_drop]
      congr 1
      congr 1
      rw [← List.append_assoc (e.take r.eo) (e.drop r.eo), List.take_append_drop]

/-! ## Claim theorems -/

/-- C2, counterexample: the reconciliation pass does NOT keep every
descriptor for which location succeeds.  For the stored descriptor
`{text: "foo", color: ""}` on a page whose text is `"foo"`, the locator
succeeds (`tryApplyQuote` applies a highlight), yet `reapplyOnLoad` drops
the record — its `!rec.color` pre-filter skips it before invoking the
locator — and persists the empty array. -/
theorem c2_counterexample :
    (reapplyOnLoad [Seg.txt "foo".data] [⟨"foo".data, [], [], []⟩]).2 = []
    ∧ (tryApplyQuote [Seg.txt "foo".data] ⟨"foo".data, [], [], []⟩).isSome = true := by
  constructor
  · decide
  · decide

/-- C2, amended: the pass applies and keeps exactly those stored
descriptors whose `text` and `color` fields are non-empty and for which
the locator succeeds on the document state current at their turn, and
persists the first `MAX_PERSISTED_PER_PAGE` of the kept subset
(`reconcileOnLoadSpec` is that wording, as a structural recursion). -/
theorem c2_reconcile_refines (d : Doc) (st : List Rec) :
    reapplyOnLoad d st = reconcileOnLoadSpec d st := by
  unfold reapplyOnLoad reconcileOnLoadSpec
  by_cases h : st.isEmpty
  · have hnil : st = [] := by
      cases st with
      | nil => rfl
      | cons a l => simp [List.isEmpty] at h
    subst hnil
    simp [reconcileKeptSpec, saveHighlightsArray]
  · rw [if_neg (by simpa using h), foldl_reapplyStep]
    simp [saveHighlightsArray]

/-- C4, counterexample: reconciliation is not idempotent.  With document
`"The quick brown fox"` and one stored descriptor for `"quick"`, the first
pass keeps it (and wraps the text in a marker); the second pass walks a
stream that excludes marker content, no longer finds `"quick"`, and keeps
nothing. -/
theorem c4_counterexample :
    ((reapplyOnLoad [Seg.txt "The quick brown fox".data]
        [⟨"quick".data, [], [], "#ffff00".data⟩]).2).length = 1
    ∧ (((reapplyOnLoad
        (reapplyOnLoad [Seg.txt "The quick brown fox".data]
          [⟨"quick".data, [], [], "#ffff00".data⟩]).1
        (reapplyOnLoad [Seg.txt "The quick brown fox".data]
          [⟨"quick".data, [], [], "#ffff00".data⟩]).2).2)).length = 0 := by
  constructor
  · decide
  · decide

/-- C4, amended: running the reconciliation pass twice with no intervening
mutation yields on the second run a kept-descriptor set that is a sublist
of the first run's (the second run re-locates against a stream that
excludes the markers applied by the first run, so descriptors whose text no
longer occurs outside those markers — e.g. uniquely-occurring texts — are
dropped; the two sets are equal only when every kept text still occurs in
the unmarked remainder). -/
theorem c4_second_run_sublist (d : Doc) (st : List Rec) :
    ((reapplyOnLoad (reapplyOnLoad d st).1 (reapplyOnLoad d st).2).2).Sublist
      (reapplyOnLoad d st).2 := by
  unfold reapplyOnLoad
  by_cases h : st.isEmpty
  · rw [if_pos h]
    simp only []
    by_cases h2 : st.isEmpty
    · rw [if_pos h2]
    · exact absurd h h2
  · rw [if_neg h, foldl_reapplyStep]
    simp only [List.nil_append]
    set k1 := (reconcileKeptSpec d st).2 with hk1
    set d1 := (reconcileKeptSpec d st).1 with hd1
    by_cases h2 : (saveHighlightsArray k1).isEmpty
    · rw [if_pos h2]
    · rw [if_neg h2, foldl_reapplyStep]
      simp only [List.nil_append]
      have hsub : ((reconcileKeptSpec d1 (saveHighlightsArray k1)).2).Sublist
          (saveHighlightsArray k1) := reconcileKeptSpec_sublist _ _
      have hlen : ((reconcileKeptSpec d1 (saveHighlightsArray k1)).2).length
          ≤ MAX_PERSISTED_PER_PAGE := by
        have h1 := hsub.length_le
        have h2' : (saveHighlightsArray k1).length ≤ MAX_PERSISTED_PER_PAGE := by
          simp [saveHighlightsArray]
        omega
      rw [show saveHighlightsArray (reconcileKeptSpec d1 (saveHighlightsArray k1)).2
          = (reconcileKeptSpec d1 (saveHighlightsArray k1)).2 from
        List.take_of_length_le hlen]
      exact hsub

/-- C5, counterexample: the service worker's fallback save path persists
more than `MAX_PERSISTED_PER_PAGE` descriptors: pushing one record onto an
existing stored array of 300 saves all 301. -/
theorem c5_counterexample :
    MAX_PERSISTED_PER_PAGE
      < (persistHighlightForUrl
          (List.replicate 300 (⟨"t".data, [], [], "#abc".data⟩ : Rec))
          ⟨"t".data, [], [], "#abc".data⟩).length := by
  simp only [persistHighlightForUrl, List.length_append, List.length_replicate,
    List.length_cons, List.length_nil, MAX_PERSISTED_PER_PAGE]
  omega

/-- C5, amended: the content script's save (`saveHighlightsArray`) persists
at most 300 descriptors — the first 300 of the input array, in the input
order; the service worker's fallback `persistHighlightForUrl` enforces no
cap. -/
theorem c5_save_caps (arr : List Rec) :
    (saveHighlightsArray arr).length = min MAX_PERSISTED_PER_PAGE arr.length
    ∧ ∀ i, i < (saveHighlightsArray arr).length
        → (saveHighlightsArray arr)[i]? = arr[i]? := by
  constructor
  · simp [saveHighlightsArray]
  · intro i hi
    simp only [saveHighlightsArray, List.length_take, lt_min_iff] at hi ⊢
    rw [List.getElem?_take_of_lt hi.1]

/-- C5 witness: the cap theorem applied at a 301-element array. -/
theorem c5_witness :
    (saveHighlightsArray (List.replicate 301 (⟨"t".data, [], [], "#abc".data⟩ : Rec))).length
      = min MAX_PERSISTED_PER_PAGE 301
    ∧ (saveHighlightsArray (List.replicate 301 (⟨"t".data, [], [], "#abc".data⟩ : Rec)))[0]?
      = (List.replicate 301 (⟨"t".data, [], [], "#abc".data⟩ : Rec))[0]? := by
  refine ⟨?_, ?_⟩
  · have h := (c5_save_caps (List.replicate 301 ⟨"t".data, [], [], "#abc".data⟩)).1
    simp only [List.length_replicate] at h
    exact h
  · exact (c5_save_caps _).2 0 (by
      simp only [saveHighlightsArray, List.length_take, List.length_replicate,
        MAX_PERSISTED_PER_PAGE]
      omega)

/-- C9: an apply-mark request that fails input validation (invalid colour,
or missing/collapsed/whitespace-only selection) returns the typed failure
before any mutation: the document and the stored array are unchanged. -/
theorem c9_validation_no_mutation (d : Doc) (st : List Rec) (c0 : Str) (sel : Option RangeB)
    (h : isValidHexColor (trimStr c0) = false ∨ sel = none
      ∨ ∃ r, sel = some r
        ∧ ((r.si = r.ei ∧ r.so = r.eo) ∨ hasNonWs (rangeToString d r) = false)) :
    ∃ e, handleMessage d st (.highlight c0) sel = some (⟨false, some e⟩, d, st)
      ∧ (e = "invalid_color".data ∨ e = "no_selection".data) := by
  by_cases hc : isValidHexColor (trimStr c0)
  · rcases h with h | h | ⟨r, rfl, h⟩
    · rw [hc] at h; cases h
    · subst h
      exact ⟨_, by simp [handleMessage, hc], Or.inr rfl⟩
    · refine ⟨"no_selection".data, ?_, Or.inr rfl⟩
      have hcond : (r.si = r.ei ∧ r.so = r.eo) ∨ ¬ hasNonWs (rangeToString d r) = true := by
        rcases h with h | h
        · exact Or.inl h
        · exact Or.inr (by simp [h])
      simp only [handleMessage]
      rw [if_neg (by simp [hc]), if_pos hcond]
  · refine ⟨_, ?_, Or.inl rfl⟩
    simp [handleMessage, hc]

/-- C9 witness: an invalid colour (`"red"`) with no selection leaves a
concrete document and stored array untouched. -/
theorem c9_witness :
    ∃ e, handleMessage [Seg.txt "hi".data] [⟨"hi".data, [], [], "#abc".data⟩]
        (.highlight "red".data) none
        = some (⟨false, some e⟩, [Seg.txt "hi".data], [⟨"hi".data, [], [], "#abc".data⟩])
      ∧ (e = "invalid_color".data ∨ e = "no_selection".data) :=
  c9_validation_no_mutation [Seg.txt "hi".data] [⟨"hi".data, [], [], "#abc".data⟩]
    "red".data none (Or.inl (by decide))

/-- C10: the rebuild-from-live-markers persistence writes the empty string
as both context fields of every persisted record, so extraction-time
disambiguation context is not retained past the first mutation. -/
theorem c10_persist_drops_context (d : Doc) (rec : Rec) (h : rec ∈ persistAllSpans d) :
    rec.pfx = [] ∧ rec.sfx = [] := by
  unfold persistAllSpans at h
  have h2 := List.mem_of_mem_take h
  obtain ⟨m, _, rfl⟩ := List.mem_map.mp h2
  exact ⟨rfl, rfl⟩

/-- C10 witness: the record persisted for a concrete marker has empty
context fields. -/
theorem c10_witness :
    (⟨"foo".data, [], [], "rgb(255, 255, 0)".data⟩ : Rec).pfx = []
    ∧ (⟨"foo".data, [], [], "rgb(255, 255, 0)".data⟩ : Rec).sfx = [] :=
  c10_persist_drops_context [Seg.mark "#ffff00".data "foo".data] _ (by decide)

/-- C6 (code bug): a record persisted by the rebuild-from-live-markers pass
carries the CSSOM serialization `rgb(170, 187, 204)` of the assigned hex
colour `#abc`, and that value fails the extension's own strict hex
validator — `persistAllSpans` reads `style.backgroundColor` back (the
`data-ext-color` attribute it prefers is never written anywhere in the
source).  Route: the document holds two markers, `#ffff00` around `"foo"`
and `#abc` around `"bar"`; the user unmarks `"foo"` by selecting it inside
the first marker (a single-text-node selection, which the source treats as
fully highlighted); the handler unwraps that marker and then persists the
surviving `"bar"` marker with its read-back colour. -/
theorem c6_persisted_color_not_hex :
    handleMessage [Seg.mark "#ffff00".data "foo".data, Seg.txt " ".data,
        Seg.mark "#abc".data "bar".data] []
      (.highlight "#ffd600".data) (some ⟨0, 0, 0, 3⟩)
      = some (⟨true, none⟩,
        [Seg.txt "foo ".data, Seg.mark "#abc".data "bar".data],
        [⟨"bar".data, [], [], "rgb(170, 187, 204)".data⟩])
    ∧ isValidHexColor "rgb(170, 187, 204)".data = false := by
  constructor
  · decide
  · decide

/-- C7 (code bug): re-anchoring `"foo"` and then the immediately following
`" bar"` with the same colour (the load-time reconciliation pass applying
two stored descriptors, which calls `insertHighlightForRange` and so
`mergeAdjacentSpans` for each) leaves TWO adjacent marker elements, not one
merged `"foo bar"` marker: `Range.insertNode` splits the boundary text node
and leaves a (possibly empty) text-node sibling next to each new span, so
`mergeAdjacentSpans` never sees a marker as
`previousSibling`/`nextSibling` and never merges.  (The interactive apply
path cannot even reach the insert for these single-text-node selections —
it answers `nothing_removed` — so the reconciliation pass is the route on
which the claimed merge scenario actually materializes both marks.) -/
theorem c7_no_merge :
    (reapplyOnLoad [Seg.txt "foo bar".data]
        [⟨"foo".data, [], [], "#ffd600".data⟩, ⟨" bar".data, [], [], "#ffd600".data⟩])
      = ([Seg.txt [], Seg.mark "#ffd600".data "foo".data, Seg.txt [],
          Seg.mark "#ffd600".data " bar".data, Seg.txt []],
        [⟨"foo".data, [], [], "#ffd600".data⟩, ⟨" bar".data, [], [], "#ffd600".data⟩])
    ∧ docMarks [Seg.txt [], Seg.mark "#ffd600".data "foo".data, Seg.txt [],
          Seg.mark "#ffd600".data " bar".data, Seg.txt []]
      = [("#ffd600".data, "foo".data), ("#ffd600".data, " bar".data)] := by
  constructor
  · decide
  · decide

/-- C1, counterexample: the canonical locator does not score occurrences.
In stream `"ab xab y"` with descriptor `{text: "ab", suffix: " y"}`, the
needle occurs at 0 (claim-score 0) and at 4 (claim-score 1: the suffix
matches there), yet `tryApplyQuote` wraps the occurrence at 0 — its plain
`indexOf` ignores the context — so the resolved occurrence is not a
highest-scoring one. -/
theorem c1_counterexample :
    tryApplyQuote [Seg.txt "ab xab y".data] ⟨"ab".data, [], " y".data, "#abc".data⟩
      = some [Seg.txt [], Seg.mark "#abc".data "ab".data, Seg.txt " xab y".data]
    ∧ occursAtB "ab xab y".data "ab".data 4 = true
    ∧ specContextScore "ab xab y".data ⟨"ab".data, [], " y".data, "#abc".data⟩ 0 = 0
    ∧ specContextScore "ab xab y".data ⟨"ab".data, [], " y".data, "#abc".data⟩ 4 = 1 := by
  refine ⟨?_, ?_, ?_, ?_⟩ <;> decide

/-- C1, amended: the draft locator `findBestMatchForQuote`
(src/unnamed/part_000) resolves, among the occurrences of the descriptor
text, the earliest one of maximal context score, exactly as the claim
describes (its internal score also awards a vacuous point for an empty
context side, but uniformly, so the resolved occurrence is unchanged);
the canonical locator `tryApplyQuote` (src/content-script.js) instead
always resolves the first occurrence in document order, ignoring the
prefix/suffix context. -/
theorem c1_locator_resolution :
    (∀ (combined : Str) (q : Rec), q.text ≠ [] → allIndicesOf combined q.text ≠ [] →
      ∃ i, bestIndexForQuote combined q = some i
        ∧ occursAtB combined q.text i = true
        ∧ ∀ j, occursAtB combined q.text j = true →
            specContextScore combined q j ≤ specContextScore combined q i
            ∧ (specContextScore combined q j = specContextScore combined q i → i ≤ j))
    ∧ (∀ (hay needle : Str) (i : Nat), indexOfStr hay needle = some i →
        occursAtB hay needle i = true ∧ ∀ j, j < i → occursAtB hay needle j = false) := by
  constructor
  · intro combined q hne hocc
    cases hms : (allIndicesOf combined q.text).mergeSort
        (fun a b => decide (prefixSuffixScore combined q b ≤ prefixSuffixScore combined q a)) with
    | nil =>
      exfalso
      have hlen := @List.length_mergeSort _
        (fun a b => decide (prefixSuffixScore combined q b ≤ prefixSuffixScore combined q a))
        (allIndicesOf combined q.text)
      rw [hms] at hlen
      simp only [List.length_nil] at hlen
      exact hocc (List.eq_nil_of_length_eq_zero hlen.symm)
    | cons a t =>
      have hhead : bestIndexForQuote combined q = some a := by
        unfold bestIndexForQuote
        rw [hms]
        rfl
      have hmain := head_mergeSort_earliest_max (prefixSuffixScore combined q)
        (allIndicesOf combined q.text) (allIndicesOf_pairwise _ _) a
        (by rw [hms]; rfl)
      refine ⟨a, hhead, (mem_allIndicesOf hne a).mp hmain.1, ?_⟩
      intro j hj
      have hjmem := (mem_allIndicesOf hne j).mpr hj
      have hj2 := hmain.2 j hjmem
      have hsa := prefixSuffixScore_shift combined q a
      have hsj := prefixSuffixScore_shift combined q j
      constructor
      · omega
      · intro he
        apply hj2.2
        omega
  · intro hay needle i h
    unfold indexOfStr at h
    rw [List.find?_range_eq_some] at h
    refine ⟨h.1, fun j hj => ?_⟩
    have := h.2.2 j hj
    simpa using this

/-- C1 witness: the amended theorem applied at the concrete stream
`"ab xab y"` (the scored draft resolves a best occurrence; the canonical
`indexOf` resolves the first occurrence of `"ab"` in `"ab"`). -/
theorem c1_witness :
    (∃ i, bestIndexForQuote "ab xab y".data ⟨"ab".data, [], " y".data, "#abc".data⟩ = some i
      ∧ occursAtB "ab xab y".data "ab".data i = true
      ∧ ∀ j, occursAtB "ab xab y".data "ab".data j = true →
          specContextScore "ab xab y".data ⟨"ab".data, [], " y".data, "#abc".data⟩ j
            ≤ specContextScore "ab xab y".data ⟨"ab".data, [], " y".data, "#abc".data⟩ i
          ∧ (specContextScore "ab xab y".data ⟨"ab".data, [], " y".data, "#abc".data⟩ j
              = specContextScore "ab xab y".data ⟨"ab".data, [], " y".data, "#abc".data⟩ i
              → i ≤ j))
    ∧ (occursAtB "ab".data "ab".data 0 = true
      ∧ ∀ j, j < 0 → occursAtB "ab".data "ab".data j = false) := by
  constructor
  · exact c1_locator_resolution.1 "ab xab y".data
      ⟨"ab".data, [], " y".data, "#abc".data⟩ (by decide) (by decide)
  · exact c1_locator_resolution.2 "ab".data "ab".data 0 (by decide)

/-- C3 (code bug): the canonical apply handler does not create a marker
for an uncovered selection confined to a single text node — the ordinary
case.  The source roots its `TreeWalker` at `range.commonAncestorContainer`
(the leaf text node itself), which visits no nodes, so
`selectionIsFullyHighlighted` is vacuously true, the removal branch runs,
no marker intersects, and the handler answers `nothing_removed`, mutating
neither the document nor storage — although the code's own header comment
("If selection contains any un-highlighted text => apply highlight to
whole selection"), the README, and the claim all promise that exactly one
new marked region equal to the selection is created. -/
theorem c3_single_node_selection_not_marked :
    handleMessage [Seg.txt "foo bar".data] [] (.highlight "#ffd600".data) (some ⟨0, 0, 0, 3⟩)
      = some (⟨false, some "nothing_removed".data⟩, [Seg.txt "foo bar".data], [])
    ∧ docMarks [Seg.txt "foo bar".data] = [] := by
  constructor
  · decide
  · decide

/-- C8, counterexample: the handler returns a failure reason outside the
claimed closed set.  A valid colour with a non-collapsed selection inside a
single plain text node makes `selectionIsFullyHighlighted` vacuously true
(the walker is rooted at the leaf), and with no intersecting marker the
removal branch answers `nothing_removed` — which is none of
`invalid_color | no_selection | empty_text | not_found | exception`. -/
theorem c8_counterexample :
    handleMessage [Seg.txt "hello world".data] [] (.highlight "#abc".data) (some ⟨0, 0, 0, 5⟩)
      = some (⟨false, some "nothing_removed".data⟩, [Seg.txt "hello world".data], [])
    ∧ "nothing_removed".data ≠ "invalid_color".data
    ∧ "nothing_removed".data ≠ "no_selection".data
    ∧ "nothing_removed".data ≠ "empty_text".data
    ∧ "nothing_removed".data ≠ "not_found".data
    ∧ "nothing_removed".data ≠ "exception".data := by
  refine ⟨?_, ?_, ?_, ?_, ?_, ?_⟩ <;> decide

/-- C8, amended: every failure result the apply-mark and clear-all handlers
return carries a reason from the closed set `{invalid_color, no_selection,
empty_text, not_found, exception, nothing_removed}` — the source also
returns `nothing_removed` when the (possibly vacuous) fully-highlighted
test sends a selection with no intersecting marker down the removal
branch. -/
theorem c8_failure_reasons (d : Doc) (st : List Rec) (msg : HMsg) (sel : Option RangeB)
    (res : Resp × Doc × List Rec)
    (hmsg : (∃ c, msg = .highlight c) ∨ msg = .clearAll)
    (hres : handleMessage d st msg sel = some res)
    (hfail : res.1.ok = false) :
    ∃ e, res.1.err = some e
      ∧ (e = "invalid_color".data ∨ e = "no_selection".data ∨ e = "empty_text".data
        ∨ e = "not_found".data ∨ e = "exception".data ∨ e = "nothing_removed".data) := by
  rcases hmsg with ⟨c, rfl⟩ | rfl
  · by_cases hc : isValidHexColor (trimStr c) = true
    · cases sel with
      | none =>
        simp only [handleMessage] at hres
        rw [if_neg (by simp [hc])] at hres
        obtain rfl := Option.some_inj.mp hres
        exact ⟨_, rfl, Or.inr (Or.inl rfl)⟩
      | some r =>
        simp only [handleMessage] at hres
        rw [if_neg (by simp [hc])] at hres
        by_cases hsel : (r.si = r.ei ∧ r.so = r.eo) ∨ ¬ hasNonWs (rangeToString d r) = true
        · rw [if_pos hsel] at hres
          obtain rfl := Option.some_inj.mp hres
          exact ⟨_, rfl, Or.inr (Or.inl rfl)⟩
        · rw [if_neg hsel] at hres
          by_cases hfull : selectionIsFullyHighlighted d r = true
          · rw [if_pos hfull] at hres
            by_cases hrem : (removeHighlightsIntersectingRange d r).2 = true
            · rw [if_pos hrem] at hres
              have hres2 : (({ ok := true, err := none } : Resp),
                  (removeHighlightsIntersectingRange d r).1,
                  saveHighlightsArray
                    (persistAllSpans (removeHighlightsIntersectingRange d r).1))
                  = res := Option.some_inj.mp hres
              rw [← hres2] at hfail
              simp at hfail
            · rw [if_neg hrem] at hres
              obtain rfl := Option.some_inj.mp hres
              exact ⟨_, rfl, Or.inr (Or.inr (Or.inr (Or.inr (Or.inr rfl))))⟩
          · rw [if_neg hfull] at hres
            cases hins : insertHighlightForRange d r (trimStr c) with
            | some d2 =>
              rw [hins] at hres
              have hres2 : (({ ok := true, err := none } : Resp), d2,
                  saveHighlightsArray (persistAllSpans d2)) = res :=
                Option.some_inj.mp hres
              rw [← hres2] at hfail
              simp at hfail
            | none =>
              rw [hins] at hres
              exact absurd ((rfl : (none : Option (Resp × Doc × List Rec)) = none).trans hres)
                (by simp)
    · cases sel with
      | none =>
        simp only [handleMessage] at hres
        rw [if_pos (by simp [hc])] at hres
        obtain rfl := Option.some_inj.mp hres
        exact ⟨_, rfl, Or.inl rfl⟩
      | some r =>
        simp only [handleMessage] at hres
        rw [if_pos (by simp [hc])] at hres
        obtain rfl := Option.some_inj.mp hres
        exact ⟨_, rfl, Or.inl rfl⟩
  · simp only [handleMessage] at hres
    obtain rfl := Option.some_inj.mp hres
    simp at hfail

/-- C8 witness: a failing request (invalid colour) carries a reason from
the amended closed set. -/
theorem c8_witness :
    ∃ e, (⟨false, some "invalid_color".data⟩ : Resp).err = some e
      ∧ (e = "invalid_color".data ∨ e = "no_selection".data ∨ e = "empty_text".data
        ∨ e = "not_found".data ∨ e = "exception".data ∨ e = "nothing_removed".data) :=
  c8_failure_reasons [] [] (.highlight "red".data) none
    (⟨false, some "invalid_color".data⟩, [], [])
    (Or.inl ⟨"red".data, rfl⟩) (by decide) (by decide)

end SBH
